import Mathlib

/-!
Verification development for the pmxbot `stack` module (`pmxbot/stack.py`).

Python strings are modelled as lists of characters (`Str`), Python `int` as
`Int`, Python exceptions as `Except`.  The topic store is modelled by the
item list read for the topic and by the optional `save_items` write recorded
in the command outcome.  Python's `random.shuffle` is an external effect and
is passed in as an explicit permutation function.
-/

abbrev Str := List Char

/-- The single-quote character. -/
def sqc : Char := Char.ofNat 39

/-- The double-quote character. -/
def dqc : Char := Char.ofNat 34

/-- Characters stripped by Python's `str.strip()`. -/
def pyWhitespace (c : Char) : Bool :=
  c == ' ' || c == Char.ofNat 9 || c == Char.ofNat 10 ||
    c == Char.ofNat 13 || c == Char.ofNat 11 || c == Char.ofNat 12

def pyStripLeft (s : Str) : Str := s.dropWhile pyWhitespace

/-- Python `str.strip()`. -/
def pyStrip (s : Str) : Str := ((pyStripLeft s).reverse.dropWhile pyWhitespace).reverse

/-- Python `str.split(c)` for a one-character separator: keeps empty pieces,
and yields `[""]` on the empty string. -/
def splitAll (c : Char) : Str → List Str
  | [] => [[]]
  | d :: rest =>
    match splitAll c rest with
    | [] => if d == c then [[], []] else [[d]]
    | h :: t => if d == c then [] :: h :: t else (d :: h) :: t

/-- Python `str.split(c, 1)`: the part before the first occurrence of `c`,
and the part after it when `c` occurs. -/
def splitFirst (c : Char) : Str → Str × Option Str
  | [] => ([], none)
  | d :: rest =>
    if d == c then ([], some rest)
    else
      match splitFirst c rest with
      | (a, b) => (d :: a, b)

/-- Python `str.find(c)` for a one-character needle (`none` models `-1`). -/
def pyFind (c : Char) : Str → Option Nat
  | [] => none
  | d :: rest => if d == c then some 0 else (pyFind c rest).map Nat.succ

/-- Python `str.rfind(c)` for a one-character needle (`none` models `-1`). -/
def pyRFind (c : Char) (s : Str) : Option Nat :=
  (pyFind c s.reverse).map (fun i => s.length - 1 - i)

/-- Python `str.lower()` (ASCII fragment). -/
def lowerStr (s : Str) : Str := s.map Char.toLower

/-- Python's substring containment `needle in hay`. -/
def isSubstr (needle : Str) : Str → Bool
  | [] => needle.isEmpty
  | d :: rest => needle.isPrefixOf (d :: rest) || isSubstr needle rest

/-- Numeric value of a decimal digit character. -/
def digitVal (c : Char) : Nat := c.toNat - 48

/-- Tail of a valid Python integer-literal digit run: digits, with single
underscores allowed between digits. -/
def pyDigitsTail : Str → Bool
  | [] => true
  | c :: rest =>
    if c == Char.ofNat 95 then
      match rest with
      | [] => false
      | d :: r2 => d.isDigit && pyDigitsTail r2
    else c.isDigit && pyDigitsTail rest

/-- A valid Python integer-literal digit run (nonempty, starts with a digit). -/
def pyDigitsValid : Str → Bool
  | [] => false
  | c :: rest => c.isDigit && pyDigitsTail rest

/-- Value of a digit run, skipping underscores. -/
def digitsToNat (s : Str) : Nat :=
  s.foldl (fun acc c => if c == Char.ofNat 95 then acc else acc * 10 + digitVal c) 0

/-- Python `int(s)`: optional surrounding whitespace, optional sign, digit run;
`none` models the `ValueError` raised on anything else. -/
def pyParseInt (s : Str) : Option Int :=
  let t := pyStrip s
  match t with
  | [] => none
  | c :: rest =>
    if c == '-' then
      if pyDigitsValid rest then some (-(digitsToNat rest : Int)) else none
    else if c == '+' then
      if pyDigitsValid rest then some ((digitsToNat rest : Int)) else none
    else if pyDigitsValid t then some ((digitsToNat t : Int)) else none

/-- Decimal digits of a natural number, most significant first; the fuel
argument makes the recursion structural. -/
def natDigitsAux : Nat → Nat → Str
  | 0, _ => []
  | fuel + 1, n =>
    if n < 10 then [Char.ofNat (48 + n)]
    else natDigitsAux fuel (n / 10) ++ [Char.ofNat (48 + n % 10)]

/-- Decimal rendering of a natural number (Python `"%d" % n` for `n ≥ 0`). -/
def natDigits (n : Nat) : Str := natDigitsAux (n + 1) n

/-- Decimal rendering of an integer. -/
def intToStr (i : Int) : Str :=
  if i < 0 then '-' :: natDigits (-i).toNat else natDigits i.toNat

/-- Python `sep.join(parts)`. -/
def joinSep (sep : Str) : List Str → Str
  | [] => []
  | [x] => x
  | x :: y :: rest => x ++ sep ++ joinSep sep (y :: rest)

/-- The two exceptions `parse_index` can raise: `ValueError` from `int()`,
and `re.error` from an invalid regular expression. -/
inductive PErr where
  | valueError
  | regexError
  deriving DecidableEq

/-- Regex metacharacters of the modelled fragment. -/
def regexMeta : Str :=
  ['[', ']', '(', ')', Char.ofNat 123, Char.ofNat 125, '*', '+', '?',
    Char.ofNat 92, '|', Char.ofNat 94, '$', '.']

/-- Modelled from the spec: the regular-expression engine is Python's external
`re` module, which is not part of this repository.  Only the fragment the
claims need is modelled: a pattern consisting of plain literal characters
searches by substring containment, while a pattern containing any regex
metacharacter lies outside the literal fragment and is treated as an invalid
pattern (in particular a lone `[` is an unterminated character set, which
`re.compile` rejects), raising `re.error` when the search is attempted. -/
def reSearch (pattern item : Str) : Except PErr Bool :=
  if pattern.any (fun c => regexMeta.contains c) then Except.error PErr.regexError
  else Except.ok (isSubstr pattern item)

/-- The regex branch of `parse_index`: `re.search` against each item in
ascending order, collecting matching indices; `re.error` escapes.  The
counter `i` carries the current 0-based position. -/
def regexIdxs (pattern : Str) : List Str → Nat → Except PErr (List Int)
  | [], _ => Except.ok []
  | item :: rest, i =>
    match reSearch pattern item with
    | Except.error e => Except.error e
    | Except.ok b =>
      match regexIdxs pattern rest (i + 1) with
      | Except.error e => Except.error e
      | Except.ok l => Except.ok (if b then (i : Int) :: l else l)

/-- The quoted-text branch of `parse_index`: indices of items whose lowered
text contains `text` (already lowered by the caller), in ascending order. -/
def containIdxs (text : Str) : List Str → Nat → List Int
  | [], _ => []
  | item :: rest, i =>
    if isSubstr text (lowerStr item) then (i : Int) :: containIdxs text rest (i + 1)
    else containIdxs text rest (i + 1)

/-- The inclusive integer range `[a..b]` as produced by `range(a, b + 1)`. -/
def intRangeIncl (a b : Int) : List Int :=
  (List.range (b + 1 - a).toNat).map (fun k : Nat => a + (k : Int))

/-- The range branch of `parse_index`, applied to the two (already stripped)
halves of an `A:B` atom. -/
def evalRange (s e : Str) (items : List Str) : Except PErr (List Int) :=
  let n : Int := items.length
  match (if s.isEmpty then some 1 else pyParseInt s),
        (if e.isEmpty then some n else pyParseInt e) with
  | some a, some b =>
    let a2 := if a < 0 then a + n + 1 else a
    let b2 := if b < 0 then b + n + 1 else b
    Except.ok (intRangeIncl (a2 - 1) (b2 - 1))
  | _, _ => Except.error PErr.valueError

/-- One (stripped, nonempty) atom of an index expression, translated branch
for branch from `parse_index` in `pmxbot/stack.py`. -/
def evalAtom (atom : Str) (items : List Str) : Except PErr (List Int) :=
  if (atom.head? == some sqc && atom.getLast? == some sqc) ||
      (atom.head? == some dqc && atom.getLast? == some dqc) then
    Except.ok (containIdxs (lowerStr ((atom.drop 1).dropLast)) items 0)
  else if atom.head? == some '/' && atom.getLast? == some '/' then
    regexIdxs ((atom.drop 1).dropLast) items 0
  else if atom.contains ':' then
    match splitFirst ':' atom with
    | (s, some e) => evalRange (pyStrip s) (pyStrip e) items
    | (_, none) => Except.error PErr.valueError
  else if atom == ("first").toList then
    Except.ok [0]
  else if atom == ("last").toList then
    Except.ok [(items.length : Int) - 1]
  else
    match pyParseInt atom with
    | none => Except.error PErr.valueError
    | some v => Except.ok [(if v < 0 then v + (items.length : Int) + 1 else v) - 1]

/-- The atom loop of `parse_index`: empty atoms are skipped, the remaining
atoms contribute in order, and the first error aborts the whole parse. -/
def parseAtoms (atoms : List Str) (items : List Str) : Except PErr (List Int) :=
  match atoms with
  | [] => Except.ok []
  | a :: rest =>
    if a.isEmpty then parseAtoms rest items
    else
      match evalAtom a items with
      | Except.error e => Except.error e
      | Except.ok v =>
        match parseAtoms rest items with
        | Except.error e => Except.error e
        | Except.ok vs => Except.ok (v ++ vs)

/-- `parse_index(index, items)` from `pmxbot/stack.py`. -/
def parse_index (index : Option Str) (items : List Str) : Except PErr (List Int) :=
  match index with
  | none => Except.ok []
  | some s => parseAtoms ((splitAll ',' s).map pyStrip) items

/-- Python `sorted(set(l))`: strictly ascending list of the distinct values. -/
def sortedInsert (i : Int) : List Int → List Int
  | [] => [i]
  | j :: rest =>
    if i < j then i :: j :: rest
    else if i == j then j :: rest
    else j :: sortedInsert i rest

def sortedSet (l : List Int) : List Int := l.foldr sortedInsert []

/-- Python `reversed(sorted(set(l)))`. -/
def descSet (l : List Int) : List Int := (sortedSet l).reverse

/-- The bound check `len(items) > i >= 0` used by pop, show and shuffle. -/
def inRange (n : Nat) (i : Int) : Bool := decide (0 ≤ i) && decide (i < (n : Int))

/-- Python `items.pop(n)`'s effect on the list, for an in-range index `n`. -/
def removeAt (l : List Str) (n : Nat) : List Str := l.take n ++ l.drop (n + 1)

/-- The effective insertion offset of Python `list.insert`: a negative
position counts from the end, and positions are clamped into `[0, n]`. -/
def pyInsertPos (pos n : Int) : Nat :=
  (if pos < 0 then max 0 (n + pos) else min pos n).toNat

/-- Python `items.insert(pos, x)`, including the clamping semantics of
out-of-range and negative insertion positions. -/
def pyInsert (pos : Int) (x : Str) (l : List Str) : List Str :=
  l.take (pyInsertPos pos l.length) ++ x :: l.drop (pyInsertPos pos l.length)

/-- One iteration of the add loop: `items.append(new_item)` when
`i >= len(items)`, else `items.insert(i + 1, new_item)`. -/
def addStep (payload : Str) (items : List Str) (i : Int) : List Str :=
  if (items.length : Int) ≤ i then items ++ [payload] else pyInsert (i + 1) payload items

def addLoop (payload : Str) : List Int → List Str → List Str
  | [], items => items
  | i :: rest, items => addLoop payload rest (addStep payload items i)

/-- The `add` subcommand's list update (`pmxbot/stack.py` lines 301-308). -/
def addOp (items : List Str) (indices : List Int) (payload : Str) : List Str :=
  if indices.isEmpty then payload :: items
  else addLoop payload (descSet indices) items

/-- The pop comprehension: for each index (descending), pop when the bound
check against the current, shrinking list passes.  Returns the final list and
the popped items in removal order. -/
def popLoop : List Int → List Str → List Str × List Str
  | [], items => (items, [])
  | i :: rest, items =>
    if inRange items.length i then
      let r := popLoop rest (removeAt items i.toNat)
      (r.1, items.getD i.toNat [] :: r.2)
    else popLoop rest items

/-- The `pop` subcommand's list update (`pmxbot/stack.py` lines 312-316). -/
def popOp (items : List Str) (indices : List Int) : List Str × List Str :=
  popLoop (descSet (if indices.isEmpty then [0] else indices)) items

/-- The `pop` response: popped items in reverse removal order as `-: item`
joined by ` | `, or `(none popped)`. -/
def popResponse (popped : List Str) : Str :=
  let s := joinSep (" | ").toList (popped.reverse.map (fun it => ("-: ").toList ++ it))
  if s.isEmpty then ("(none popped)").toList else s

/-- One rendered entry `"%d: %s" % (i + 1, items[i])`. -/
def renderEntry (items : List Str) (i : Int) : Str :=
  natDigits (i + 1).toNat ++ (": ").toList ++ items.getD i.toNat []

/-- The `show` subcommand's response (`pmxbot/stack.py` lines 329-332). -/
def showOp (items : List Str) (indices : List Int) (sep : Str) : Str :=
  let idxs := if indices.isEmpty then (List.range items.length).map (fun k : Nat => (k : Int)) else indices
  let s := joinSep sep ((idxs.filter (inRange items.length)).map (renderEntry items))
  if s.isEmpty then ("(empty)").toList else s

/-- The `shuffle` subcommand's list update for a nonempty index list
(`pmxbot/stack.py` line 337). -/
def shuffleOp (items : List Str) (indices : List Int) : List Str :=
  (indices.filter (inRange items.length)).map (fun i => items.getD i.toNat [])

/-- Rendering of a whole list as `1: a | 2: b | ...`, or `(empty)`. -/
def renderList (items : List Str) : Str :=
  let s := joinSep (" | ").toList
    ((items.enum).map (fun x => natDigits (x.1 + 1) ++ (": ").toList ++ x.2))
  if s.isEmpty then ("(empty)").toList else s

/-- The outcome of one command invocation: the response text returned to the
chat host (`none` models Python's `None`), and the `save_items` write
performed, if any, as (topic, items). -/
structure StackOutcome where
  response : Option Str
  write : Option (Str × List Str)
  deriving DecidableEq

def helpStack : Str :=
  ("!stack <subcommand> <topic[index]> <item> | subcommand: show, add, pop, shuffle, help | index: [2, 4:-3 (inclusive), \"foo\", /ba.*r/]").toList

def helpHelp : Str :=
  ("!stack help <show, add, pop, shuffle, help, stack, index>: Show help for the given subcommand or feature (default: help)").toList

def helpAdd : Str :=
  ("!stack add <topic[index]> item: Add the given item to the given topic before the given (1-based) index (default: 1)").toList

def helpPop : Str :=
  ("!stack pop <topic[index]>: Pop any items from the given topic at the given (1-based) index(es) (default: 1)").toList

def helpShow : Str :=
  ("!stack show <topic[index]> <multiline>: Show items from the given topic at the given (1-based) indexes (default: all)").toList

def helpShuffle : Str :=
  ("!stack shuffle <topic[index]>: Shuffle items from the given topic into the the given (1-based) index order (default: random)").toList

def helpIndex : Str :=
  ("!stack indexes must be integers `[2]`, start:end slices (inclusive) `[4:-3]`, `\"text\"` or a `/regex/` to match, `first` or `last`, or any combination of those separated by commas.").toList

/-- `help.get(new_item, help[\"help\"])`. -/
def helpGet (k : Str) : Str :=
  if k == ("stack").toList then helpStack
  else if k == ("help").toList then helpHelp
  else if k == ("add").toList then helpAdd
  else if k == ("pop").toList then helpPop
  else if k == ("show").toList then helpShow
  else if k == ("shuffle").toList then helpShuffle
  else if k == ("index").toList then helpIndex
  else helpHelp

/-- The usage error returned by `add` without an item. -/
def addUsage : Str :=
  ("!stack add <topic[index]> item: You must provide an item to add.").toList

/-- The usage error returned by `show` for a bad multiline flag (the literal
string at `pmxbot/stack.py` line 327, identical to the `show` help text). -/
def showUsage : Str :=
  ("!stack show <topic[index]> <multiline>: Show items from the given topic at the given (1-based) indexes (default: all)").toList

/-- The `add` branch of the `stack` command (lines 297-310): usage error on
an empty payload, else compute the new list and persist it; Python returns
`None` from this branch. -/
def addBranch (topic : Str) (items : List Str) (indices : List Int) (new_item : Str) : StackOutcome :=
  if new_item.isEmpty then StackOutcome.mk (some addUsage) none
  else StackOutcome.mk none (some (topic, addOp items indices new_item))

/-- The `pop` branch (lines 311-320): pop, persist, report. -/
def popBranch (topic : Str) (items : List Str) (indices : List Int) : StackOutcome :=
  let r := popOp items indices
  StackOutcome.mk (some (popResponse r.2)) (some (topic, r.1))

/-- The `show` branch (lines 321-332): never writes. -/
def showBranch (items : List Str) (indices : List Int) (new_item : Str) : StackOutcome :=
  if new_item.isEmpty then
    StackOutcome.mk (some (showOp items indices (" | ").toList)) none
  else if List.isPrefixOf new_item (("multiline").toList) then
    StackOutcome.mk (some (showOp items indices [Char.ofNat 10])) none
  else StackOutcome.mk (some showUsage) none

/-- The `shuffle` branch (lines 333-340); `randomShuffle` stands for the
external `random.shuffle`. -/
def shuffleBranch (topic : Str) (items : List Str) (indices : List Int)
    (randomShuffle : List Str → List Str) : StackOutcome :=
  let items2 := if indices.isEmpty then randomShuffle items else shuffleOp items indices
  StackOutcome.mk (some (renderList items2)) (some (topic, items2))

/-- Lines 265-273: split the raw rest on the first space, strip, drop empty
pieces, and select the subcommand word and the remaining text. -/
def subSplit (rest : Str) : Str × Str :=
  let raw := match splitFirst ' ' rest with
    | (a, none) => [a]
    | (a, some b) => [a, b]
  let atoms := (raw.map pyStrip).filter (fun a => !a.isEmpty)
  match atoms with
  | [] => (("show").toList, [])
  | [a] => (a, [])
  | a :: b :: _ => (a, b)

/-- Lines 275-286: recognize a `topic[index]` prefix via the first `[`, the
last `]` and the first space, and split into topic, index expression and
payload. -/
def splitTopicIndex (nick rest : Str) : Str × Option Str × Str :=
  let start := pyFind '[' rest
  let finish := pyRFind ']' rest
  let sp := pyFind ' ' rest
  match start, finish with
  | some s, some f =>
    if decide (s < f) && (match sp with | none => true | some p => decide (s < p)) then
      match splitFirst '[' (rest.take f) with
      | (t, some idx) =>
        let topic0 := pyStrip t
        ((if topic0.isEmpty then nick else topic0), some (pyStrip idx),
          pyStrip (rest.drop (f + 1)))
      | (t, none) =>
        -- dead branch: the guard guarantees a bracket before position f
        ((if (pyStrip t).isEmpty then nick else pyStrip t), none,
          pyStrip (rest.drop (f + 1)))
    else (nick, none, pyStrip rest)
  | _, _ => (nick, none, pyStrip rest)

/-- The whole `stack` command (lines 263-344).  `getItems` models
`Stack.store.get_items`; the recorded write models `save_items`.  Only
`ValueError` is caught around `parse_index`; a regex error propagates out of
the command as an uncaught exception (`Except.error`). -/
def stackCmd (nick rest : Str) (getItems : Str → List Str)
    (randomShuffle : List Str → List Str) : Except PErr StackOutcome :=
  let sc := (subSplit rest).1
  let rest2 := (subSplit rest).2
  let tix := splitTopicIndex nick rest2
  let topic := tix.1
  let index := tix.2.1
  let new_item := tix.2.2
  let items := getItems topic
  match parse_index index items with
  | Except.error PErr.valueError => Except.ok (StackOutcome.mk (some helpIndex) none)
  | Except.error PErr.regexError => Except.error PErr.regexError
  | Except.ok indices =>
    if sc == ("add").toList then Except.ok (addBranch topic items indices new_item)
    else if sc == ("pop").toList then Except.ok (popBranch topic items indices)
    else if sc == ("show").toList then Except.ok (showBranch items indices new_item)
    else if sc == ("shuffle").toList then
      Except.ok (shuffleBranch topic items indices randomShuffle)
    else if sc == ("help").toList then Except.ok (StackOutcome.mk (some (helpGet new_item)) none)
    else Except.ok (StackOutcome.mk (some helpStack) none)

/-! ### Character and strip lemmas -/

lemma pyWhitespace_cases {c : Char} (h : pyWhitespace c = true) :
    c = ' ' ∨ c = Char.ofNat 9 ∨ c = Char.ofNat 10 ∨ c = Char.ofNat 13 ∨
      c = Char.ofNat 11 ∨ c = Char.ofNat 12 := by
  simp only [pyWhitespace, Bool.or_eq_true, beq_iff_eq] at h
  tauto

lemma not_ws_of_isDigit {c : Char} (h : c.isDigit = true) : pyWhitespace c = false := by
  cases hb : pyWhitespace c with
  | false => rfl
  | true =>
    exfalso
    rcases pyWhitespace_cases hb with h1 | h1 | h1 | h1 | h1 | h1 <;>
      subst h1 <;> exact absurd h (by decide)

lemma not_ws_minus : pyWhitespace '-' = false := by decide

lemma dropWhile_eq_self_of {p : Char → Bool} {l : Str} (h : ∀ c ∈ l, p c = false) :
    l.dropWhile p = l := by
  cases l with
  | nil => rfl
  | cons c t => simp [List.dropWhile, h c (by simp)]

lemma pyStrip_eq_self {l : Str} (h : ∀ c ∈ l, pyWhitespace c = false) : pyStrip l = l := by
  unfold pyStrip pyStripLeft
  rw [dropWhile_eq_self_of h, dropWhile_eq_self_of (fun c hc => h c (by simpa using hc)),
    List.reverse_reverse]

/-! ### Decimal rendering and its round trip through `int()` -/

lemma natDigitsAux_fuel_irrel :
    ∀ f1 f2 n, n < f1 → n < f2 → natDigitsAux f1 n = natDigitsAux f2 n := by
  intro f1
  induction f1 with
  | zero => intro f2 n h1 _; omega
  | succ g ih =>
    intro f2 n h1 h2
    cases f2 with
    | zero => omega
    | succ h =>
      show (if n < 10 then [Char.ofNat (48 + n)] else natDigitsAux g (n / 10) ++ [Char.ofNat (48 + n % 10)])
        = (if n < 10 then [Char.ofNat (48 + n)] else natDigitsAux h (n / 10) ++ [Char.ofNat (48 + n % 10)])
      by_cases hn : n < 10
      · simp [hn]
      · have hd : n / 10 < n := Nat.div_lt_self (by omega) (by omega)
        rw [if_neg hn, if_neg hn, ih h (n / 10) (by omega) (by omega)]

lemma natDigits_eq (n : Nat) :
    natDigits n = if n < 10 then [Char.ofNat (48 + n)]
      else natDigits (n / 10) ++ [Char.ofNat (48 + n % 10)] := by
  by_cases hn : n < 10
  · simp only [natDigits, natDigitsAux, if_pos hn]
  · have hd : n / 10 < n := Nat.div_lt_self (by omega) (by omega)
    rw [if_neg hn]
    show natDigitsAux (n + 1) n = natDigitsAux (n / 10 + 1) (n / 10) ++ [Char.ofNat (48 + n % 10)]
    have h1 : natDigitsAux (n + 1) n
        = if n < 10 then [Char.ofNat (48 + n)]
          else natDigitsAux n (n / 10) ++ [Char.ofNat (48 + n % 10)] := rfl
    rw [h1, if_neg hn, natDigitsAux_fuel_irrel n (n / 10 + 1) (n / 10) (by omega) (by omega)]

lemma digitChar_isDigit {d : Nat} (h : d < 10) : (Char.ofNat (48 + d)).isDigit = true := by
  interval_cases d <;> decide

lemma digitChar_val {d : Nat} (h : d < 10) : digitVal (Char.ofNat (48 + d)) = d := by
  interval_cases d <;> decide

lemma natDigits_ne_nil (n : Nat) : natDigits n ≠ [] := by
  rw [natDigits_eq]
  by_cases hn : n < 10 <;> simp [hn]

lemma natDigits_all_digit (n : Nat) : ∀ c ∈ natDigits n, c.isDigit = true := by
  induction n using Nat.strong_induction_on with
  | _ n ih =>
    rw [natDigits_eq]
    by_cases hn : n < 10
    · simpa [hn] using digitChar_isDigit hn
    · have hd : n / 10 < n := Nat.div_lt_self (by omega) (by omega)
      simp only [if_neg hn]
      intro c hc
      rcases List.mem_append.mp hc with hc | hc
      · exact ih (n / 10) hd c hc
      · simp only [List.mem_singleton] at hc
        subst hc
        exact digitChar_isDigit (Nat.mod_lt _ (by omega))

lemma isDigit_ne_underscore {c : Char} (h : c.isDigit = true) :
    (c == Char.ofNat 95) = false := by
  cases hb : c == Char.ofNat 95 with
  | false => rfl
  | true =>
    exfalso
    have hc : c = Char.ofNat 95 := beq_iff_eq.mp hb
    subst hc
    exact absurd h (by decide)

lemma pyDigitsTail_of_all {l : Str} (h : ∀ c ∈ l, c.isDigit = true) :
    pyDigitsTail l = true := by
  induction l with
  | nil => rfl
  | cons c t ih =>
    have hc : c.isDigit = true := h c (List.mem_cons_self c t)
    have ht : pyDigitsTail t = true := ih (fun d hd => h d (List.mem_cons_of_mem c hd))
    cases t with
    | nil =>
      show (if c == Char.ofNat 95 then false else c.isDigit && pyDigitsTail []) = true
      rw [isDigit_ne_underscore hc]
      simp [hc]
      rfl
    | cons d r =>
      show (if c == Char.ofNat 95 then d.isDigit && pyDigitsTail r
        else c.isDigit && pyDigitsTail (d :: r)) = true
      rw [isDigit_ne_underscore hc]
      simp [hc]
      simpa using ht

lemma pyDigitsValid_of_all {l : Str} (hne : l ≠ []) (h : ∀ c ∈ l, c.isDigit = true) :
    pyDigitsValid l = true := by
  cases l with
  | nil => exact absurd rfl hne
  | cons c t =>
    show (c.isDigit && pyDigitsTail t) = true
    rw [h c (List.mem_cons_self c t),
      pyDigitsTail_of_all (fun d hd => h d (List.mem_cons_of_mem c hd))]
    rfl

lemma digitsToNat_append_digit (l : Str) (c : Char) (h : c.isDigit = true) :
    digitsToNat (l ++ [c]) = digitsToNat l * 10 + digitVal c := by
  unfold digitsToNat
  rw [List.foldl_append]
  simp only [List.foldl_cons, List.foldl_nil, isDigit_ne_underscore h]
  simp

lemma digitsToNat_natDigits (n : Nat) : digitsToNat (natDigits n) = n := by
  induction n using Nat.strong_induction_on with
  | _ n ih =>
    rw [natDigits_eq]
    by_cases hn : n < 10
    · rw [if_pos hn]
      have h1 : digitsToNat [Char.ofNat (48 + n)] = digitVal (Char.ofNat (48 + n)) := by
        unfold digitsToNat
        simp only [List.foldl_cons, List.foldl_nil,
          isDigit_ne_underscore (digitChar_isDigit hn)]
        simp
      rw [h1, digitChar_val hn]
    · have hd : n / 10 < n := Nat.div_lt_self (by omega) (by omega)
      rw [if_neg hn,
        digitsToNat_append_digit _ _ (digitChar_isDigit (Nat.mod_lt _ (by omega))),
        ih (n / 10) hd, digitChar_val (Nat.mod_lt _ (by omega))]
      omega

lemma pyStrip_natDigits (n : Nat) : pyStrip (natDigits n) = natDigits n :=
  pyStrip_eq_self (fun c hc => not_ws_of_isDigit (natDigits_all_digit n c hc))

lemma isDigit_ne_char {c x : Char} (h : c.isDigit = true) (hx : x.isDigit = false) :
    (c == x) = false := by
  cases hb : c == x with
  | false => rfl
  | true => exact absurd (beq_iff_eq.mp hb ▸ h) (by simp [hx])

lemma pyDigitsValid_natDigits (n : Nat) : pyDigitsValid (natDigits n) = true :=
  pyDigitsValid_of_all (natDigits_ne_nil n) (natDigits_all_digit n)

lemma pyParseInt_natDigits (n : Nat) : pyParseInt (natDigits n) = some (n : Int) := by
  obtain ⟨c, rest, hc⟩ := List.exists_cons_of_ne_nil (natDigits_ne_nil n)
  have hcd : c.isDigit = true := natDigits_all_digit n c (by rw [hc]; simp)
  unfold pyParseInt
  rw [pyStrip_natDigits, hc]
  simp only [isDigit_ne_char hcd (by decide : ('-').isDigit = false),
    isDigit_ne_char hcd (by decide : ('+').isDigit = false), Bool.false_eq_true,
    if_false, ← hc, pyDigitsValid_natDigits, if_true, digitsToNat_natDigits]

lemma pyParseInt_intToStr (i : Int) : pyParseInt (intToStr i) = some i := by
  unfold intToStr
  by_cases hi : i < 0
  · rw [if_pos hi]
    have hstrip : pyStrip ('-' :: natDigits (-i).toNat) = '-' :: natDigits (-i).toNat := by
      refine pyStrip_eq_self ?_
      intro c hc
      rcases List.mem_cons.mp hc with hc | hc
      · subst hc; exact not_ws_minus
      · exact not_ws_of_isDigit (natDigits_all_digit _ c hc)
    unfold pyParseInt
    rw [hstrip]
    simp only [beq_self_eq_true, if_true, pyDigitsValid_natDigits, digitsToNat_natDigits]
    congr 1
    omega
  · rw [if_neg hi, pyParseInt_natDigits]
    congr 1
    omega

/-! ### `sorted(set(l))` -/

lemma mem_sortedInsert (i x : Int) (l : List Int) :
    x ∈ sortedInsert i l ↔ x = i ∨ x ∈ l := by
  induction l with
  | nil => simp [sortedInsert]
  | cons j t ih =>
    unfold sortedInsert
    by_cases h1 : i < j
    · simp [h1]
    · by_cases h2 : i = j
      · subst h2
        simp only [if_neg h1, beq_self_eq_true, if_true, List.mem_cons]
        constructor
        · tauto
        · rintro (h | h | h) <;> simp [h]
      · rw [if_neg h1, if_neg (by simpa using h2)]
        simp only [List.mem_cons, ih]
        tauto

lemma sortedInsert_sorted (i : Int) (l : List Int) (h : l.Sorted (· < ·)) :
    (sortedInsert i l).Sorted (· < ·) := by
  induction l with
  | nil => simp [sortedInsert]
  | cons j t ih =>
    rw [List.sorted_cons] at h
    unfold sortedInsert
    by_cases h1 : i < j
    · rw [if_pos h1, List.sorted_cons]
      refine ⟨?_, by rw [List.sorted_cons]; exact h⟩
      intro b hb
      rcases List.mem_cons.mp hb with hb | hb
      · omega
      · have := h.1 b hb; omega
    · by_cases h2 : i = j
      · subst h2
        rw [if_neg h1]
        simp only [beq_self_eq_true, if_true]
        rw [List.sorted_cons]
        exact h
      · rw [if_neg h1, if_neg (by simpa using h2), List.sorted_cons]
        refine ⟨?_, ih h.2⟩
        intro b hb
        rcases (mem_sortedInsert i b t).mp hb with hb | hb
        · subst hb; omega
        · exact h.1 b hb

lemma mem_sortedSet (l : List Int) (x : Int) : x ∈ sortedSet l ↔ x ∈ l := by
  induction l with
  | nil => simp [sortedSet]
  | cons j t ih =>
    show x ∈ sortedInsert j (sortedSet t) ↔ _
    rw [mem_sortedInsert, ih]
    simp

lemma sortedSet_sorted (l : List Int) : (sortedSet l).Sorted (· < ·) := by
  induction l with
  | nil => simp [sortedSet]
  | cons j t ih => exact sortedInsert_sorted j (sortedSet t) ih

lemma sortedSet_eq_nil_iff (l : List Int) : sortedSet l = [] ↔ l = [] := by
  constructor
  · intro h
    cases l with
    | nil => rfl
    | cons j t =>
      exfalso
      have : j ∈ sortedSet (j :: t) := (mem_sortedSet _ _).mpr (by simp)
      rw [h] at this
      simp at this
  · intro h; subst h; rfl

lemma descSet_sorted (l : List Int) : (descSet l).Sorted (· > ·) := by
  unfold descSet
  exact (List.pairwise_reverse).mpr (by simpa using sortedSet_sorted l)

lemma mem_descSet (l : List Int) (x : Int) : x ∈ descSet l ↔ x ∈ l := by
  unfold descSet
  rw [List.mem_reverse, mem_sortedSet]

/-- Two strictly descending lists with the same members are equal. -/
lemma sorted_gt_ext :
    ∀ (l l' : List Int), l.Sorted (· > ·) → l'.Sorted (· > ·) →
      (∀ x, x ∈ l ↔ x ∈ l') → l = l' := by
  intro l
  induction l with
  | nil =>
    intro l' _ _ hmem
    cases l' with
    | nil => rfl
    | cons b bs => exact absurd ((hmem b).mpr (by simp)) (by simp)
  | cons a as ih =>
    intro l' hl hl' hmem
    cases l' with
    | nil => exact absurd ((hmem a).mp (by simp)) (by simp)
    | cons b bs =>
      rw [List.sorted_cons] at hl hl'
      have hab : a = b := by
        by_contra hne
        have ha : a ∈ b :: bs := (hmem a).mp (by simp)
        have hb : b ∈ a :: as := (hmem b).mpr (by simp)
        rcases List.mem_cons.mp ha with h | h
        · exact hne h
        · have h1 := hl'.1 a h
          rcases List.mem_cons.mp hb with h2 | h2
          · exact hne h2.symm
          · have h3 := hl.1 b h2
            omega
      subst hab
      congr 1
      refine ih bs hl.2 hl'.2 ?_
      intro x
      constructor
      · intro hx
        have := (hmem x).mp (by simp [hx])
        rcases List.mem_cons.mp this with h | h
        · exfalso; have := hl.1 x hx; omega
        · exact h
      · intro hx
        have hmx := (hmem x).mpr (List.mem_cons_of_mem _ hx)
        rcases List.mem_cons.mp hmx with h | h
        · subst h
          exact absurd (hl'.1 _ hx) (by omega)
        · exact h

/-! ### The pop operation: spec-side characterization -/

/-- The spec-side default for `pop`: an empty resolved index list means `[0]`. -/
def popDefault (idxs : List Int) : List Int := if idxs.isEmpty then [0] else idxs

/-- The deduplicated in-range requested positions in ascending order,
measured against the original list length. -/
def validAsc (n : Nat) (idxs : List Int) : List Int :=
  (sortedSet (popDefault idxs)).filter (inRange n)

/-- Spec-side remainder: drop every element whose 0-based position (counted
from `k`) is a member of `valid`; each position in `valid` thus removes
exactly one element. -/
def remainingFrom (k : Int) (valid : List Int) : List Str → List Str
  | [] => []
  | x :: t =>
    if k ∈ valid then remainingFrom (k + 1) valid t
    else x :: remainingFrom (k + 1) valid t

lemma removeAt_cons_zero (x : Str) (t : List Str) : removeAt (x :: t) 0 = t := rfl

lemma removeAt_cons_succ (x : Str) (t : List Str) (m : Nat) :
    removeAt (x :: t) (m + 1) = x :: removeAt t m := by
  unfold removeAt
  rfl

lemma removeAt_length {l : List Str} {n : Nat} (h : n < l.length) :
    (removeAt l n).length = l.length - 1 := by
  unfold removeAt
  rw [List.length_append, List.length_take, List.length_drop]
  omega

lemma getD_removeAt_lt : ∀ (l : List Str) (n m : Nat), m < n →
    (removeAt l n).getD m [] = l.getD m [] := by
  intro l
  induction l with
  | nil => intro n m _; simp [removeAt]
  | cons x t ih =>
    intro n m h
    cases n with
    | zero => omega
    | succ n' =>
      rw [removeAt_cons_succ]
      cases m with
      | zero => rfl
      | succ m' =>
        rw [List.getD_cons_succ, List.getD_cons_succ]
        exact ih n' m' (by omega)

lemma remainingFrom_congr (v v' : List Int) (h : ∀ x, x ∈ v ↔ x ∈ v') :
    ∀ (l : List Str) (k : Int), remainingFrom k v l = remainingFrom k v' l := by
  intro l
  induction l with
  | nil => intro k; rfl
  | cons x t ih =>
    intro k
    unfold remainingFrom
    by_cases hk : k ∈ v
    · rw [if_pos hk, if_pos ((h k).mp hk), ih]
    · rw [if_neg hk, if_neg (fun hc => hk ((h k).mpr hc)), ih]

lemma remainingFrom_cons (k : Int) (v : List Int) (x : Str) (t : List Str) :
    remainingFrom k v (x :: t)
      = if k ∈ v then remainingFrom (k + 1) v t else x :: remainingFrom (k + 1) v t := rfl

lemma remainingFrom_outside : ∀ (l : List Str) (k : Int) (v : List Int),
    (∀ x ∈ v, x < k ∨ (k + l.length : Int) ≤ x) → remainingFrom k v l = l := by
  intro l
  induction l with
  | nil => intro k v _; rfl
  | cons x t ih =>
    intro k v h
    have hk : k ∉ v := by
      intro hc
      rcases h k hc with h1 | h1
      · omega
      · rw [List.length_cons] at h1
        push_cast at h1
        omega
    rw [remainingFrom_cons, if_neg hk, ih (k + 1) v]
    intro y hy
    rcases h y hy with h1 | h1
    · left; omega
    · right
      rw [List.length_cons] at h1
      push_cast at h1 ⊢
      omega

lemma remainingFrom_append : ∀ (l1 l2 : List Str) (k : Int) (v : List Int),
    remainingFrom k v (l1 ++ l2)
      = remainingFrom k v l1 ++ remainingFrom (k + l1.length) v l2 := by
  intro l1
  induction l1 with
  | nil => intro l2 k v; simp [remainingFrom]
  | cons x t ih =>
    intro l2 k v
    have harith : k + 1 + (t.length : Int) = k + ((x :: t).length : Int) := by
      push_cast [List.length_cons]
      ring
    by_cases hk : k ∈ v
    · rw [List.cons_append, remainingFrom_cons, remainingFrom_cons, if_pos hk, if_pos hk,
        ih, harith]
    · rw [List.cons_append, remainingFrom_cons, remainingFrom_cons, if_neg hk, if_neg hk,
        ih, harith, List.cons_append]

lemma remainingFrom_all_in : ∀ (l : List Str) (k : Int) (v : List Int),
    (∀ q : Int, k ≤ q → q < k + l.length → q ∈ v) → remainingFrom k v l = [] := by
  intro l
  induction l with
  | nil => intro k v _; rfl
  | cons x t ih =>
    intro k v h
    have hk : k ∈ v := h k le_rfl (by rw [List.length_cons]; push_cast; omega)
    rw [remainingFrom_cons, if_pos hk, ih (k + 1) v]
    intro q h1 h2
    refine h q (by omega) ?_
    rw [List.length_cons]
    push_cast at h2 ⊢
    omega

lemma remainingFrom_insert : ∀ (l : List Str) (k i : Int) (v : List Int),
    k ≤ i → i < k + l.length → (∀ j ∈ v, j < i) →
    remainingFrom k (i :: v) l = remainingFrom k v (removeAt l (i - k).toNat) := by
  intro l
  induction l with
  | nil => intro k i v h1 h2 _; simp at h2; omega
  | cons x t ih =>
    intro k i v h1 h2 hv
    by_cases hik : i = k
    · subst hik
      have h0 : (i - i).toNat = 0 := by omega
      rw [h0, removeAt_cons_zero]
      show (if i ∈ i :: v then remainingFrom (i + 1) (i :: v) t
        else x :: remainingFrom (i + 1) (i :: v) t) = _
      rw [if_pos (List.mem_cons_self i v)]
      rw [remainingFrom_outside t (i + 1) (i :: v), remainingFrom_outside t i v]
      · intro y hy
        left
        exact hv y hy
      · intro y hy
        rcases List.mem_cons.mp hy with hy | hy
        · left; omega
        · left; have := hv y hy; omega
    · have hki : k < i := by omega
      have hm : (i - k).toNat = (i - (k + 1)).toNat + 1 := by omega
      rw [hm, removeAt_cons_succ]
      show (if k ∈ i :: v then remainingFrom (k + 1) (i :: v) t
        else x :: remainingFrom (k + 1) (i :: v) t)
        = (if k ∈ v then remainingFrom (k + 1) v (removeAt t (i - (k + 1)).toNat)
          else x :: remainingFrom (k + 1) v (removeAt t (i - (k + 1)).toNat))
      have hrec : remainingFrom (k + 1) (i :: v) t
          = remainingFrom (k + 1) v (removeAt t (i - (k + 1)).toNat) := by
        refine ih (k + 1) i v (by omega) ?_ hv
        simp at h2 ⊢
        omega
      have hmem : (k ∈ i :: v) ↔ (k ∈ v) := by
        simp only [List.mem_cons]
        constructor
        · rintro (h | h)
          · omega
          · exact h
        · intro h; right; exact h
      by_cases hk : k ∈ v
      · rw [if_pos (hmem.mpr hk), if_pos hk, hrec]
      · rw [if_neg (fun hc => hk (hmem.mp hc)), if_neg hk, hrec]

lemma popLoop_cons (i : Int) (rest : List Int) (items : List Str) :
    popLoop (i :: rest) items
      = if inRange items.length i then
          ((popLoop rest (removeAt items i.toNat)).1,
            items.getD i.toNat [] :: (popLoop rest (removeAt items i.toNat)).2)
        else popLoop rest items := rfl

lemma inRange_iff (n : Nat) (i : Int) : inRange n i = true ↔ 0 ≤ i ∧ i < (n : Int) := by
  unfold inRange
  simp

lemma inRange_pred {n : Nat} {i j : Int} (hj : j < i) (h0 : 0 ≤ i) (hi : i < (n : Int)) :
    inRange (n - 1) j = inRange n j := by
  unfold inRange
  by_cases hj0 : 0 ≤ j
  · have h1 : j < ((n - 1 : Nat) : Int) := by omega
    have h2 : j < (n : Int) := by omega
    simp [hj0, h1, h2]
  · simp [hj0]

/-- The pop comprehension, characterized against the original list: with the
requested positions strictly descending, exactly the in-range positions
(judged against the original length) each remove one element, the removed
elements are the original elements at those positions (in removal order),
and the remaining list drops exactly those positions. -/
lemma popLoop_spec : ∀ (D : List Int) (items : List Str), D.Sorted (· > ·) →
    popLoop D items
      = (remainingFrom 0 (D.filter (inRange items.length)) items,
         (D.filter (inRange items.length)).map (fun i => items.getD i.toNat [])) := by
  intro D
  induction D with
  | nil =>
    intro items _
    show (items, []) = _
    rw [List.filter_nil, remainingFrom_outside items 0 [] (by simp)]
    rfl
  | cons i D' ih =>
    intro items hsort
    rw [List.sorted_cons] at hsort
    obtain ⟨hgt, hsort'⟩ := hsort
    by_cases hir : inRange items.length i = true
    · obtain ⟨h0i, hilen⟩ := (inRange_iff _ _).mp hir
      have hlen1 : 1 ≤ items.length := by omega
      have hlen2 : (removeAt items i.toNat).length = items.length - 1 :=
        removeAt_length (by omega)
      have hfilter : D'.filter (inRange (removeAt items i.toNat).length)
          = D'.filter (inRange items.length) := by
        refine List.filter_congr ?_
        intro j hj
        rw [hlen2]
        exact inRange_pred (hgt j hj) h0i hilen
      have hmap : (D'.filter (inRange items.length)).map
            (fun j => (removeAt items i.toNat).getD j.toNat [])
          = (D'.filter (inRange items.length)).map (fun j => items.getD j.toNat []) := by
        refine List.map_congr_left ?_
        intro j hj
        have hji : i > j := hgt j (List.mem_of_mem_filter hj)
        have hj0 : 0 ≤ j := ((inRange_iff _ _).mp (List.of_mem_filter hj)).1
        exact getD_removeAt_lt items i.toNat j.toNat (by omega)
      have hmemlt : ∀ j ∈ D'.filter (inRange items.length), j < i :=
        fun j hj => hgt j (List.mem_of_mem_filter hj)
      rw [popLoop_cons, if_pos hir, ih (removeAt items i.toNat) hsort', hfilter, hmap,
        List.filter_cons_of_pos hir,
        remainingFrom_insert items 0 i (D'.filter (inRange items.length)) h0i
          (by omega) hmemlt]
      simp
    · rw [popLoop_cons, if_neg hir, ih items hsort',
        List.filter_cons_of_neg (by simpa using hir)]

lemma joinSep_eq_nil {sep : Str} {l : List Str} (h : ∀ x ∈ l, x ≠ []) :
    joinSep sep l = [] ↔ l = [] := by
  cases l with
  | nil => simp [joinSep]
  | cons x t =>
    cases t with
    | nil =>
      show x = [] ↔ _
      simp only [List.cons_ne_nil, iff_false]
      exact h x (by simp)
    | cons y r =>
      show (x ++ sep ++ joinSep sep (y :: r)) = [] ↔ _
      simp only [List.append_eq_nil, List.cons_ne_nil, iff_false]
      intro hc
      exact h x (by simp) hc.1.1

lemma descSet_filter (l : List Int) (p : Int → Bool) :
    (descSet l).filter p = ((sortedSet l).filter p).reverse := by
  unfold descSet
  exact List.filter_reverse p (sortedSet l)

lemma popOp_eq (items : List Str) (idxs : List Int) :
    popOp items idxs
      = (remainingFrom 0 (validAsc items.length idxs) items,
          ((validAsc items.length idxs).map (fun i => items.getD i.toNat [])).reverse) := by
  unfold popOp
  rw [popLoop_spec _ _ (descSet_sorted _)]
  have h1 : (descSet (if idxs.isEmpty then [0] else idxs)).filter (inRange items.length)
      = (validAsc items.length idxs).reverse := by
    rw [descSet_filter]
    rfl
  rw [h1, List.map_reverse,
    remainingFrom_congr _ _ (fun x => List.mem_reverse) items 0]

lemma popResponse_of_asc (l : List Str) :
    popResponse l.reverse
      = if l.isEmpty then ("(none popped)").toList
        else joinSep (" | ").toList (l.map (fun it => ("-: ").toList ++ it)) := by
  show (if (joinSep (" | ").toList
        ((l.reverse.reverse).map (fun it => ("-: ").toList ++ it))).isEmpty = true
      then ("(none popped)").toList
      else joinSep (" | ").toList ((l.reverse.reverse).map (fun it => ("-: ").toList ++ it))) = _
  rw [List.reverse_reverse]
  by_cases hl : l = []
  · subst hl
    simp [joinSep]
  · have hne : joinSep (" | ").toList (l.map (fun it => ("-: ").toList ++ it)) ≠ [] := by
      intro hc
      have h2 := (joinSep_eq_nil ?_).mp hc
      · exact hl (List.map_eq_nil_iff.mp h2)
      · intro x hx
        obtain ⟨i, hi1, hi2⟩ := List.mem_map.mp hx
        rw [← hi2]
        simp
    rw [if_neg (by simpa [List.isEmpty_iff] using hne),
      if_neg (by simpa [List.isEmpty_iff] using hl)]

/-- C2: for the pop operation, an empty resolved index list defaults to [0];
indices are deduplicated and processed in descending order; exactly the
positions `i` with `0 ≤ i < length` (the original length) each remove exactly
one element — the element originally at that position — while all other
requested positions remove nothing; the remaining list keeps exactly the
untouched positions; the response reports the removed items in ascending
original position as `-: item` joined by ` | `, or the literal string
`(none popped)` when nothing was removed; and pop persists the remaining
list. -/
theorem stack_pop_semantics (items : List Str) (idxs : List Int) (topic : Str) :
    popOp items idxs
      = (remainingFrom 0 (validAsc items.length idxs) items,
          ((validAsc items.length idxs).map (fun i => items.getD i.toNat [])).reverse) ∧
    (popBranch topic items idxs).response
      = some (if (validAsc items.length idxs).isEmpty then ("(none popped)").toList
          else joinSep (" | ").toList
            ((validAsc items.length idxs).map
              (fun i => ("-: ").toList ++ items.getD i.toNat []))) ∧
    (popBranch topic items idxs).write = some (topic, (popOp items idxs).1) := by
  refine ⟨popOp_eq items idxs, ?_, rfl⟩
  show some (popResponse (popOp items idxs).2) = _
  rw [popOp_eq items idxs]
  rw [popResponse_of_asc]
  rw [List.map_map]
  have hform : (((fun it => ("-: ").toList ++ it) ∘ fun i : Int => items.getD i.toNat [])
        : Int → Str)
      = fun i : Int => ("-: ").toList ++ items.getD i.toNat [] := rfl
  rw [hform]
  by_cases hv : validAsc items.length idxs = []
  · rw [hv]
    simp [joinSep]
  · rw [if_neg (by simpa [List.isEmpty_iff, List.map_eq_nil_iff] using hv),
      if_neg (by simpa [List.isEmpty_iff] using hv)]

lemma addStep_append (items : List Str) (payload : Str) (i : Int)
    (h : (items.length : Int) ≤ i) : addStep payload items i = items ++ [payload] := by
  unfold addStep
  rw [if_pos h]

lemma addStep_insert (items : List Str) (payload : Str) (i : Int)
    (h0 : 0 ≤ i) (hlen : i < (items.length : Int)) :
    addStep payload items i
      = items.take (i.toNat + 1) ++ payload :: items.drop (i.toNat + 1) := by
  unfold addStep
  rw [if_neg (by omega)]
  unfold pyInsert
  have hp : pyInsertPos (i + 1) (items.length : Int) = i.toNat + 1 := by
    unfold pyInsertPos
    rw [if_neg (by omega), min_eq_left (by omega)]
    omega
  rw [hp]

/-- C1: for the add operation with a non-empty payload: an empty resolved
index list inserts the payload at the front; otherwise the indices are
deduplicated and processed in strictly descending order (any strictly
descending enumeration of the distinct indices gives the code's result), and
each step appends the payload at the end whenever the index is at least the
current length — no matter how large — and otherwise inserts the payload
immediately after that index; with a non-empty payload the resulting list is
persisted for the topic. -/
theorem stack_add_semantics :
    (∀ (items : List Str) (payload : Str), addOp items [] payload = payload :: items) ∧
    (∀ (items : List Str) (idxs D : List Int) (payload : Str),
      idxs ≠ [] → D.Sorted (· > ·) → (∀ x, x ∈ D ↔ x ∈ idxs) →
      addOp items idxs payload = addLoop payload D items) ∧
    (∀ (items : List Str) (payload : Str) (i : Int),
      (items.length : Int) ≤ i → addStep payload items i = items ++ [payload]) ∧
    (∀ (items : List Str) (payload : Str) (i : Int),
      0 ≤ i → i < (items.length : Int) →
      addStep payload items i
        = items.take (i.toNat + 1) ++ payload :: items.drop (i.toNat + 1)) ∧
    (∀ (topic : Str) (items : List Str) (idxs : List Int) (payload : Str),
      payload ≠ [] →
      addBranch topic items idxs payload
        = StackOutcome.mk none (some (topic, addOp items idxs payload))) := by
  refine ⟨fun items payload => rfl, ?_, ?_, ?_, ?_⟩
  · intro items idxs D payload hne hsort hmem
    have hD : D = descSet idxs :=
      sorted_gt_ext D (descSet idxs) hsort (descSet_sorted idxs)
        (fun x => by rw [hmem, mem_descSet])
    unfold addOp
    rw [if_neg (by simpa [List.isEmpty_iff] using hne), hD]
  · exact addStep_append
  · exact addStep_insert
  · intro topic items idxs payload hne
    unfold addBranch
    rw [if_neg (by simpa [List.isEmpty_iff] using hne)]

/-- Witness for `stack_add_semantics` at concrete inputs. -/
theorem stack_add_semantics_witness :
    addOp [("a").toList, ("b").toList] [5, 1] (("x").toList)
        = addLoop (("x").toList) [5, 1] [("a").toList, ("b").toList] ∧
    addStep (("x").toList) [("a").toList] 7 = [("a").toList, ("x").toList] ∧
    addStep (("x").toList) [("a").toList, ("b").toList] 0
        = [("a").toList, ("x").toList, ("b").toList] ∧
    addBranch (("t").toList) [("a").toList] [0] (("x").toList)
        = StackOutcome.mk none
            (some ((("t").toList), addOp [("a").toList] [0] (("x").toList))) := by
  refine ⟨?_, ?_, ?_, ?_⟩
  · exact stack_add_semantics.2.1 _ [5, 1] [5, 1] _ (by decide) (by decide) (fun x => Iff.rfl)
  · rw [stack_add_semantics.2.2.1 [("a").toList] (("x").toList) 7 (by decide)]
    rfl
  · rw [stack_add_semantics.2.2.2.1 [("a").toList, ("b").toList] (("x").toList) 0
      (by decide) (by decide)]
    rfl
  · exact stack_add_semantics.2.2.2.2 _ _ _ _ (by decide)

/-! ### Shuffle and show -/

/-- Spec-side shuffle: for each requested position in the given order,
duplicates preserved, take the item at that position when `0 ≤ i < length`
and skip it otherwise. -/
def shuffleSpec (items : List Str) : List Int → List Str
  | [] => []
  | i :: rest =>
    (if inRange items.length i then [items.getD i.toNat []] else [])
      ++ shuffleSpec items rest

lemma shuffleOp_cons (items : List Str) (i : Int) (rest : List Int) :
    shuffleOp items (i :: rest)
      = (if inRange items.length i then [items.getD i.toNat []] else [])
        ++ shuffleOp items rest := by
  unfold shuffleOp
  by_cases h : inRange items.length i = true
  · rw [List.filter_cons_of_pos h, List.map_cons, if_pos h]
    rfl
  · rw [List.filter_cons_of_neg (by simpa using h), if_neg h]
    rfl

lemma shuffleOp_eq_spec (items : List Str) :
    ∀ idxs, shuffleOp items idxs = shuffleSpec items idxs := by
  intro idxs
  induction idxs with
  | nil => rfl
  | cons i rest ih =>
    rw [shuffleOp_cons, ih]
    rfl

/-- C3: for the shuffle operation with a non-empty resolved index list, the
new persisted list takes, for each position in the given order with
duplicates preserved and no deduplication, the item currently at that
position when `0 ≤ position < length`; out-of-range positions are skipped and
unreferenced positions are dropped; in particular processing is compositional
in the index list, so a repeated position duplicates its item; on the stack
`a, b, c` the command `shuffle [3,1]` responds `1: c | 2: a` and persists
`[c, a]`. -/
theorem stack_shuffle_semantics :
    (∀ (items : List Str) (idxs : List Int), shuffleOp items idxs = shuffleSpec items idxs) ∧
    (∀ (items : List Str) (l1 l2 : List Int),
      shuffleOp items (l1 ++ l2) = shuffleOp items l1 ++ shuffleOp items l2) ∧
    (∀ (topic : Str) (items : List Str) (idxs : List Int) (shf : List Str → List Str),
      (shuffleBranch topic items idxs shf).write
        = some (topic, if idxs.isEmpty then shf items else shuffleOp items idxs)) ∧
    stackCmd (("n").toList) (("shuffle [3,1]").toList)
        (fun t => if t == ("n").toList then [("a").toList, ("b").toList, ("c").toList] else [])
        (fun l => l)
      = Except.ok (StackOutcome.mk (some (("1: c | 2: a").toList))
          (some ((("n").toList), [("c").toList, ("a").toList]))) := by
  refine ⟨shuffleOp_eq_spec, ?_, fun topic items idxs shf => rfl, ?_⟩
  · intro items l1 l2
    unfold shuffleOp
    rw [List.filter_append, List.map_append]
  · rfl

/-- Spec-side rendering for show: each valid position in the given order,
duplicates preserved, rendered 1-based; invalid positions silently skipped. -/
def renderEntries (items : List Str) : List Int → List Str
  | [] => []
  | i :: rest =>
    (if inRange items.length i then [renderEntry items i] else [])
      ++ renderEntries items rest

lemma renderEntries_eq (items : List Str) :
    ∀ idxs, (idxs.filter (inRange items.length)).map (renderEntry items)
      = renderEntries items idxs := by
  intro idxs
  induction idxs with
  | nil => rfl
  | cons i rest ih =>
    by_cases h : inRange items.length i = true
    · rw [List.filter_cons_of_pos h, List.map_cons, ih]
      show _ = (if inRange items.length i then [renderEntry items i] else []) ++ _
      rw [if_pos h]
      rfl
    · rw [List.filter_cons_of_neg (by simpa using h), ih]
      show _ = (if inRange items.length i then [renderEntry items i] else []) ++ _
      rw [if_neg h]
      rfl

lemma renderEntry_ne_nil (items : List Str) (i : Int) : renderEntry items i ≠ [] := by
  unfold renderEntry
  simp [natDigits_ne_nil]

lemma renderEntries_mem_ne_nil (items : List Str) :
    ∀ (l : List Int) (x : Str), x ∈ renderEntries items l → x ≠ [] := by
  intro l
  induction l with
  | nil => intro x hx; simp [renderEntries] at hx
  | cons i rest ih =>
    intro x hx
    unfold renderEntries at hx
    rcases List.mem_append.mp hx with hx | hx
    · by_cases h : inRange items.length i = true
      · rw [if_pos h] at hx
        simp only [List.mem_singleton] at hx
        subst hx
        exact renderEntry_ne_nil items i
      · rw [if_neg h] at hx
        simp at hx
    · exact ih x hx

/-- C8: for the show operation, an empty resolved index list defaults to all
positions `0..length-1` in ascending order; each valid position
(`0 ≤ i < length`, invalid positions silently skipped) is rendered in the
given index order with duplicates preserved as `position+1: item`, joined by
`" | "` when the payload is empty, or by a newline when the payload is a
non-empty prefix of the word `multiline` (any other non-empty payload gets
the usage-error text); an empty result after filtering renders as the
literal string `(empty)`; and show never writes to the store. -/
theorem stack_show_semantics :
    (∀ (items : List Str) (idxs : List Int) (sep : Str),
      showOp items idxs sep
        = (if (renderEntries items (if idxs.isEmpty
              then (List.range items.length).map (fun k : Nat => (k : Int)) else idxs)).isEmpty
           then ("(empty)").toList
           else joinSep sep (renderEntries items (if idxs.isEmpty
              then (List.range items.length).map (fun k : Nat => (k : Int)) else idxs)))) ∧
    (∀ (items : List Str) (idxs : List Int) (payload : Str),
      (showBranch items idxs payload).write = none) ∧
    (∀ (items : List Str) (idxs : List Int) (payload : Str),
      (showBranch items idxs payload).response
        = some (if payload.isEmpty then showOp items idxs ((" | ").toList)
            else if List.isPrefixOf payload (("multiline").toList)
              then showOp items idxs [Char.ofNat 10]
            else showUsage)) ∧
    stackCmd (("n").toList) (("show [5]").toList)
        (fun t => if t == ("n").toList then [("a").toList] else []) (fun l => l)
      = Except.ok (StackOutcome.mk (some (("(empty)").toList)) none) := by
  refine ⟨?_, ?_, ?_, rfl⟩
  · intro items idxs sep
    show (if (joinSep sep (((if idxs.isEmpty
            then (List.range items.length).map (fun k : Nat => (k : Int)) else idxs).filter
              (inRange items.length)).map (renderEntry items))).isEmpty = true
        then ("(empty)").toList
        else joinSep sep (((if idxs.isEmpty
            then (List.range items.length).map (fun k : Nat => (k : Int)) else idxs).filter
              (inRange items.length)).map (renderEntry items))) = _
    rw [renderEntries_eq]
    set RE := renderEntries items (if idxs.isEmpty
        then (List.range items.length).map (fun k : Nat => (k : Int)) else idxs) with hRE
    by_cases hre : RE = []
    · rw [hre]
      simp [joinSep]
    · have hne : joinSep sep RE ≠ [] := fun hc =>
        hre ((joinSep_eq_nil (renderEntries_mem_ne_nil items _)).mp hc)
      rw [if_neg (by rw [List.isEmpty_iff]; exact hne),
        if_neg (by rw [List.isEmpty_iff]; exact hre)]
  · intro items idxs payload
    unfold showBranch
    by_cases h1 : payload.isEmpty = true
    · rw [if_pos h1]
    · rw [if_neg h1]
      by_cases h2 : List.isPrefixOf payload (("multiline").toList) = true
      · rw [if_pos h2]
      · rw [if_neg h2]
  · intro items idxs payload
    unfold showBranch
    by_cases h1 : payload.isEmpty = true
    · rw [if_pos h1, if_pos h1]
    · rw [if_neg h1, if_neg h1]
      by_cases h2 : List.isPrefixOf payload (("multiline").toList) = true
      · rw [if_pos h2, if_pos h2]
      · rw [if_neg h2, if_neg h2]

/-! ### Quoted atoms -/

/-- Spec-side quoted-atom evaluation: the index of every item whose
lower-cased text contains the lower-cased quoted text, in ascending stack
order. -/
def containSpec (text : Str) (items : List Str) : List Int :=
  ((List.range items.length).filter
    (fun k => isSubstr (lowerStr text) (lowerStr (items.getD k [])))).map (fun k : Nat => (k : Int))

lemma containIdxs_spec (t : Str) :
    ∀ (items : List Str) (k : Nat),
      containIdxs t items k
        = ((List.range items.length).filter
            (fun j => isSubstr t (lowerStr (items.getD j [])))).map
              (fun j => ((j + k : Nat) : Int)) := by
  intro items
  induction items with
  | nil => intro k; rfl
  | cons x rest ih =>
    intro k
    show (if isSubstr t (lowerStr x) then (k : Int) :: containIdxs t rest (k + 1)
      else containIdxs t rest (k + 1)) = _
    rw [List.length_cons, List.range_succ_eq_map, List.filter_cons]
    have hp0 : isSubstr t (lowerStr ((x :: rest).getD 0 [])) = isSubstr t (lowerStr x) := rfl
    have hmapfilter :
        ((List.range rest.length).map Nat.succ).filter
            (fun j => isSubstr t (lowerStr ((x :: rest).getD j [])))
          = ((List.range rest.length).filter
              (fun j => isSubstr t (lowerStr (rest.getD j [])))).map Nat.succ := by
      rw [List.filter_map]
      rfl
    rw [hp0, hmapfilter]
    by_cases hx : isSubstr t (lowerStr x) = true
    · rw [if_pos hx, if_pos hx, ih (k + 1), List.map_cons, List.map_map]
      congr 1
      · omega
      · refine List.map_congr_left ?_
        intro j _
        show ((j + (k + 1) : Nat) : Int) = ((j + 1 + k : Nat) : Int)
        omega
    · rw [if_neg hx, if_neg hx, ih (k + 1), List.map_map]
      refine List.map_congr_left ?_
      intro j _
      show ((j + (k + 1) : Nat) : Int) = ((j + 1 + k : Nat) : Int)
      omega

lemma containIdxs_zero (t : Str) (items : List Str) :
    containIdxs (lowerStr t) items 0 = containSpec t items := by
  rw [containIdxs_spec]
  unfold containSpec
  refine List.map_congr_left ?_
  intro j _
  show ((j + 0 : Nat) : Int) = (j : Int)
  omega

lemma isSubstr_nil (hay : Str) : isSubstr [] hay = true := by
  cases hay with
  | nil => rfl
  | cons d rest => show (List.isPrefixOf [] (d :: rest) || isSubstr [] rest) = true; simp

/-- C7: every quoted atom `'text'` or `"text"` (a matching quote pair at the
two ends) evaluated against an item list contributes the index of every item
whose lower-cased text contains the lower-cased quoted text — case-insensitive
substring containment — in ascending stack order. -/
theorem quoted_atom_semantics :
    (∀ (text : Str) (items : List Str),
      evalAtom (sqc :: text ++ [sqc]) items = Except.ok (containSpec text items)) ∧
    (∀ (text : Str) (items : List Str),
      evalAtom (dqc :: text ++ [dqc]) items = Except.ok (containSpec text items)) ∧
    (∀ (text : Str) (items : List Str), (containSpec text items).Sorted (· < ·)) := by
  have hsorted : ∀ (text : Str) (items : List Str), (containSpec text items).Sorted (· < ·) := by
    intro text items
    unfold containSpec
    refine List.Pairwise.map _ ?_ (List.Pairwise.filter _ (List.pairwise_lt_range _))
    intro a b hab
    exact_mod_cast hab
  refine ⟨?_, ?_, hsorted⟩
  · intro text items
    unfold evalAtom
    have hhead : (sqc :: text ++ [sqc]).head? = some sqc := rfl
    have hlast : (sqc :: text ++ [sqc]).getLast? = some sqc := List.getLast?_concat _
    rw [hhead, hlast]
    simp only [beq_self_eq_true, Bool.and_self, Bool.true_or, if_true]
    have hdrop : ((sqc :: text ++ [sqc]).drop 1).dropLast = text := by
      show (text ++ [sqc]).dropLast = text
      exact List.dropLast_concat
    rw [hdrop, containIdxs_zero]
  · intro text items
    unfold evalAtom
    have hhead : (dqc :: text ++ [dqc]).head? = some dqc := rfl
    have hlast : (dqc :: text ++ [dqc]).getLast? = some dqc := List.getLast?_concat _
    rw [hhead, hlast]
    have hsq : (some dqc == some sqc) = false := by decide
    rw [hsq]
    simp only [beq_self_eq_true, Bool.and_self, Bool.false_and, Bool.false_or, if_true]
    have hdrop : ((dqc :: text ++ [dqc]).drop 1).dropLast = text := by
      show (text ++ [dqc]).dropLast = text
      exact List.dropLast_concat
    rw [hdrop, containIdxs_zero]

/-- C10: the one-character atom consisting of a single quote character is
accepted by the parser rather than rejected: it quotes the empty string,
every item contains the empty string, and so it resolves to every position
`0..length-1` in ascending order. -/
theorem lone_quote_selects_all (items : List Str) :
    evalAtom [sqc] items
        = Except.ok ((List.range items.length).map (fun k : Nat => (k : Int))) ∧
    evalAtom [dqc] items
        = Except.ok ((List.range items.length).map (fun k : Nat => (k : Int))) ∧
    parse_index (some [sqc]) items
        = Except.ok ((List.range items.length).map (fun k : Nat => (k : Int))) := by
  have hall : containSpec [] items = (List.range items.length).map (fun k : Nat => (k : Int)) := by
    unfold containSpec
    rw [List.filter_eq_self.mpr]
    intro a _
    exact isSubstr_nil _
  have h1 : evalAtom [sqc] items
      = Except.ok ((List.range items.length).map (fun k : Nat => (k : Int))) := by
    unfold evalAtom
    have hc : (([sqc] : Str).head? == some sqc && ([sqc] : Str).getLast? == some sqc) = true := by
      decide
    rw [hc]
    simp only [Bool.true_or, if_true]
    show Except.ok (containIdxs (lowerStr (([] : Str).dropLast)) items 0) = _
    rw [show lowerStr (([] : Str).dropLast) = lowerStr [] from rfl, containIdxs_zero, hall]
  have h2 : evalAtom [dqc] items
      = Except.ok ((List.range items.length).map (fun k : Nat => (k : Int))) := by
    unfold evalAtom
    have hc1 : (([dqc] : Str).head? == some sqc && ([dqc] : Str).getLast? == some sqc) = false := by
      decide
    have hc2 : (([dqc] : Str).head? == some dqc && ([dqc] : Str).getLast? == some dqc) = true := by
      decide
    rw [hc1, hc2]
    simp only [Bool.false_or, if_true]
    show Except.ok (containIdxs (lowerStr (([] : Str).dropLast)) items 0) = _
    rw [show lowerStr (([] : Str).dropLast) = lowerStr [] from rfl, containIdxs_zero, hall]
  refine ⟨h1, h2, ?_⟩
  have hsplit : (splitAll ',' [sqc]).map pyStrip = [[sqc]] := by decide
  show parseAtoms ((splitAll ',' [sqc]).map pyStrip) items = _
  rw [hsplit]
  show (if ([sqc] : Str).isEmpty then parseAtoms [] items
    else match evalAtom [sqc] items with
      | Except.error e => Except.error e
      | Except.ok v =>
        match parseAtoms [] items with
        | Except.error e => Except.error e
        | Except.ok vs => Except.ok (v ++ vs)) = _
  rw [if_neg (by decide), h1]
  show Except.ok ((List.range items.length).map (fun k : Nat => (k : Int)) ++ []) = _
  rw [List.append_nil]

/-! ### Malformed index atoms -/

/-- C5 counterexample: on topic items `["a"]`, the command `show [/[/]`
contains the atom `/[/` whose pattern `[` is not a valid regular expression;
the invocation does not return the canned index-help text — the regex error
raised inside `parse_index` is not a `ValueError`, is not caught by the
command, and propagates as an uncaught exception (so no response is produced
at all, and no write occurs only because the command aborted). -/
theorem invalid_regex_uncaught_cex :
    stackCmd (("n").toList) (("show [/[/]").toList)
        (fun t => if t == ("n").toList then [("a").toList] else []) (fun l => l)
      = Except.error PErr.regexError ∧
    stackCmd (("n").toList) (("show [/[/]").toList)
        (fun t => if t == ("n").toList then [("a").toList] else []) (fun l => l)
      ≠ Except.ok (StackOutcome.mk (some helpIndex) none) := by
  refine ⟨rfl, ?_⟩
  intro h
  rw [show stackCmd (("n").toList) (("show [/[/]").toList)
      (fun t => if t == ("n").toList then [("a").toList] else []) (fun l => l)
      = Except.error PErr.regexError from rfl] at h
  exact Except.noConfusion h

/-- C5 (amended): when index parsing fails with the integer-conversion error
(`ValueError`) — which is what every malformed atom that is not of the
`/pattern/` regex form produces, since only `int()` raises `ValueError` in
`parse_index` — the command invocation returns the canned index-help text
with no partial result and no store write; an invalid regular expression
instead raises a regex error that the command does not catch. -/
theorem malformed_index_returns_help
    (nick rest : Str) (getItems : Str → List Str) (shf : List Str → List Str)
    (h : parse_index (splitTopicIndex nick (subSplit rest).2).2.1
        (getItems (splitTopicIndex nick (subSplit rest).2).1)
      = Except.error PErr.valueError) :
    stackCmd nick rest getItems shf
      = Except.ok (StackOutcome.mk (some helpIndex) none) := by
  simp only [stackCmd]
  rw [h]

/-- Witness: `pop [zap]` has a malformed (non-regex) atom and returns the
index-help text with no write. -/
theorem malformed_index_returns_help_witness :
    stackCmd (("n").toList) (("pop [zap]").toList) (fun _ => []) (fun l => l)
      = Except.ok (StackOutcome.mk (some helpIndex) none) :=
  malformed_index_returns_help (("n").toList) (("pop [zap]").toList) (fun _ => [])
    (fun l => l) rfl

/-! ### Range atoms -/

/-- Spec-side rendering of an optional range endpoint: omitted, or a decimal
integer. -/
def renderOptInt : Option Int → Str
  | none => []
  | some i => intToStr i

/-- Spec-side endpoint conversion: the default when omitted, a negative value
first remapped by adding `length + 1`, then shifted to 0-based by
subtracting 1. -/
def convEndpoint (v : Option Int) (dflt : Int) (n : Nat) : Int :=
  (if v.getD dflt < 0 then v.getD dflt + (n : Int) + 1 else v.getD dflt) - 1

lemma intToStr_ne_nil (i : Int) : intToStr i ≠ [] := by
  unfold intToStr
  by_cases hi : i < 0
  · simp [hi]
  · simp [hi, natDigits_ne_nil]

lemma intToStr_chars (i : Int) : ∀ c ∈ intToStr i, c.isDigit = true ∨ c = '-' := by
  unfold intToStr
  by_cases hi : i < 0
  · rw [if_pos hi]
    intro c hc
    rcases List.mem_cons.mp hc with hc | hc
    · right; exact hc
    · left; exact natDigits_all_digit _ c hc
  · rw [if_neg hi]
    intro c hc
    left
    exact natDigits_all_digit _ c hc

lemma renderOptInt_chars (v : Option Int) :
    ∀ c ∈ renderOptInt v, c.isDigit = true ∨ c = '-' := by
  cases v with
  | none => intro c hc; simp [renderOptInt] at hc
  | some i => exact intToStr_chars i

lemma numChar_ne {c q : Char} (hc : c.isDigit = true ∨ c = '-' ∨ c = ':')
    (hq1 : q.isDigit = false) (hq2 : q ≠ '-') (hq3 : q ≠ ':') : c ≠ q := by
  intro h
  subst h
  rcases hc with hc | hc | hc
  · rw [hc] at hq1; cases hq1
  · exact hq2 hc
  · exact hq3 hc

lemma splitFirst_append (c : Char) :
    ∀ (a b : Str), c ∉ a → splitFirst c (a ++ c :: b) = (a, some b) := by
  intro a
  induction a with
  | nil =>
    intro b _
    show (if c == c then (([] : Str), some b) else _) = _
    simp
  | cons d a' ih =>
    intro b hc
    have hdc : (d == c) = false := by
      refine beq_eq_false_iff_ne.mpr ?_
      intro h
      exact hc (by simp [h])
    show (if d == c then (([] : Str), some (a' ++ c :: b))
      else ((d :: (splitFirst c (a' ++ c :: b)).1), (splitFirst c (a' ++ c :: b)).2)) = _
    rw [hdc]
    simp only [Bool.false_eq_true, if_false]
    rw [ih b (fun h => hc (List.mem_cons_of_mem d h))]

/-- Routing of a numeric range atom to the range branch of `parse_index`:
an atom made of an optional numeric part, a colon and another optional
numeric part is not a quoted atom, not a regex atom, contains a colon, and
splits on its first colon. -/
lemma evalAtom_range (ra rb : Str) (items : List Str)
    (hra : ∀ c ∈ ra, c.isDigit = true ∨ c = '-')
    (hrb : ∀ c ∈ rb, c.isDigit = true ∨ c = '-')
    (hcol : ':' ∉ ra) :
    evalAtom (ra ++ ':' :: rb) items = evalRange (pyStrip ra) (pyStrip rb) items := by
  obtain ⟨ch, hch, hchp⟩ : ∃ ch, (ra ++ ':' :: rb).head? = some ch ∧
      (ch.isDigit = true ∨ ch = '-' ∨ ch = ':') := by
    cases ra with
    | nil => exact ⟨':', rfl, Or.inr (Or.inr rfl)⟩
    | cons d a' =>
      refine ⟨d, rfl, ?_⟩
      rcases hra d (by simp) with h | h
      · exact Or.inl h
      · exact Or.inr (Or.inl h)
  obtain ⟨cl, hcl, hclp⟩ : ∃ cl, (ra ++ ':' :: rb).getLast? = some cl ∧
      (cl.isDigit = true ∨ cl = '-' ∨ cl = ':') := by
    rw [List.getLast?_append_of_ne_nil ra (by simp)]
    cases rb using List.reverseRecOn with
    | nil => exact ⟨':', rfl, Or.inr (Or.inr rfl)⟩
    | append_singleton rb' d _ =>
      refine ⟨d, ?_, ?_⟩
      · rw [← List.cons_append, List.getLast?_concat]
      · rcases hrb d (by simp) with h | h
        · exact Or.inl h
        · exact Or.inr (Or.inl h)
  have hq1 : ((ra ++ ':' :: rb).head? == some sqc) = false := by
    rw [hch]
    exact beq_eq_false_iff_ne.mpr (by
      intro h
      exact numChar_ne hchp (by decide) (by decide) (by decide) (Option.some.inj h))
  have hq2 : ((ra ++ ':' :: rb).head? == some dqc) = false := by
    rw [hch]
    exact beq_eq_false_iff_ne.mpr (by
      intro h
      exact numChar_ne hchp (by decide) (by decide) (by decide) (Option.some.inj h))
  have hq3 : ((ra ++ ':' :: rb).head? == some '/') = false := by
    rw [hch]
    exact beq_eq_false_iff_ne.mpr (by
      intro h
      exact numChar_ne hchp (by decide) (by decide) (by decide) (Option.some.inj h))
  have hcontains : (ra ++ ':' :: rb).contains ':' = true :=
    List.elem_eq_true_of_mem (by simp)
  unfold evalAtom
  rw [hq1, hq2, hq3]
  simp only [Bool.false_and, Bool.or_self, Bool.false_eq_true, if_false]
  rw [hcontains]
  simp only [if_true]
  rw [splitFirst_append ':' ra rb hcol]

lemma pyStrip_renderOptInt (v : Option Int) : pyStrip (renderOptInt v) = renderOptInt v := by
  refine pyStrip_eq_self ?_
  intro c hc
  rcases renderOptInt_chars v c hc with h | h
  · exact not_ws_of_isDigit h
  · rw [h]; exact not_ws_minus

lemma renderOptInt_no_colon (v : Option Int) : ':' ∉ renderOptInt v := by
  intro hc
  rcases renderOptInt_chars v ':' hc with h | h
  · cases h
  · cases h

lemma endpoint_value (v : Option Int) (dflt : Int) :
    (if (renderOptInt v).isEmpty then some dflt else pyParseInt (renderOptInt v))
      = some (v.getD dflt) := by
  cases v with
  | none => rfl
  | some i =>
    rw [if_neg (by simpa [List.isEmpty_iff] using intToStr_ne_nil i)]
    exact pyParseInt_intToStr i

/-- C4: a range atom `A:B` against a list of length `n`: an omitted `A`
defaults to 1 and an omitted `B` defaults to `n`; a negative endpoint is
first remapped by adding `n + 1`; both are then shifted to 0-based by
subtracting 1; the atom contributes exactly the integers from converted `A`
to converted `B` inclusive, in ascending order, and contributes no positions
at all (not a parse error) exactly when converted `A` exceeds converted `B`. -/
theorem range_atom_semantics :
    (∀ (items : List Str) (a b : Option Int),
      evalAtom (renderOptInt a ++ ':' :: renderOptInt b) items
        = Except.ok (intRangeIncl (convEndpoint a 1 items.length)
            (convEndpoint b (items.length : Int) items.length))) ∧
    (∀ x y : Int, intRangeIncl x y = [] ↔ y < x) ∧
    (∀ x y z : Int, z ∈ intRangeIncl x y ↔ x ≤ z ∧ z ≤ y) ∧
    (∀ x y : Int, (intRangeIncl x y).Sorted (· < ·)) := by
  refine ⟨?_, ?_, ?_, ?_⟩
  · intro items a b
    rw [evalAtom_range _ _ items (renderOptInt_chars a) (renderOptInt_chars b)
      (renderOptInt_no_colon a)]
    rw [pyStrip_renderOptInt, pyStrip_renderOptInt]
    show (match (if (renderOptInt a).isEmpty then some 1 else pyParseInt (renderOptInt a)),
        (if (renderOptInt b).isEmpty then some ((items.length : Nat) : Int)
          else pyParseInt (renderOptInt b)) with
      | some a2, some b2 =>
        Except.ok (intRangeIncl
          ((if a2 < 0 then a2 + (items.length : Int) + 1 else a2) - 1)
          ((if b2 < 0 then b2 + (items.length : Int) + 1 else b2) - 1))
      | _, _ => Except.error PErr.valueError) = _
    rw [endpoint_value a 1, endpoint_value b ((items.length : Nat) : Int)]
    rfl
  · intro x y
    unfold intRangeIncl
    rw [List.map_eq_nil_iff, List.range_eq_nil]
    omega
  · intro x y z
    unfold intRangeIncl
    simp only [List.mem_map, List.mem_range]
    constructor
    · rintro ⟨k, hk, rfl⟩
      omega
    · rintro ⟨h1, h2⟩
      exact ⟨(z - x).toNat, by omega, by omega⟩
  · intro x y
    unfold intRangeIncl
    refine List.Pairwise.map _ ?_ (List.pairwise_lt_range _)
    intro a b hab
    omega

/-! ### Command-syntax extraction -/

lemma pyFind_cons (c d : Char) (rest : Str) :
    pyFind c (d :: rest)
      = if d == c then some 0 else (pyFind c rest).map Nat.succ := rfl

lemma pyFind_eq_none (c : Char) : ∀ l : Str, pyFind c l = none ↔ c ∉ l := by
  intro l
  induction l with
  | nil => simp [pyFind]
  | cons d rest ih =>
    rw [pyFind_cons]
    by_cases hdc : (d == c) = true
    · rw [if_pos hdc]
      have hd : d = c := beq_iff_eq.mp hdc
      subst hd
      simp
    · rw [if_neg hdc]
      have hne : d ≠ c := by simpa using hdc
      simp [ih, Ne.symm hne]

lemma pyFind_eq_some (c : Char) :
    ∀ (l : Str) (p : Nat), pyFind c l = some p →
      ∃ a b, l = a ++ c :: b ∧ a.length = p ∧ c ∉ a := by
  intro l
  induction l with
  | nil => intro p h; cases h
  | cons d rest ih =>
    intro p h
    rw [pyFind_cons] at h
    by_cases hdc : (d == c) = true
    · rw [if_pos hdc] at h
      have hd : d = c := beq_iff_eq.mp hdc
      subst hd
      cases h
      exact ⟨[], rest, rfl, rfl, by simp⟩
    · rw [if_neg hdc] at h
      have hne : d ≠ c := by simpa using hdc
      obtain ⟨q, hq, hfq⟩ := Option.map_eq_some'.mp h
      obtain ⟨a, b, hl, hlen, hni⟩ := ih q hq
      refine ⟨d :: a, b, by rw [hl]; rfl, by simp only [List.length_cons, hlen]; omega, ?_⟩
      intro hc
      rcases List.mem_cons.mp hc with hc | hc
      · exact hne hc.symm
      · exact hni hc

lemma space_cond_eq (rest : Str) (s : Nat) (hs : pyFind '[' rest = some s) :
    (match pyFind ' ' rest with | none => true | some p => decide (s < p))
      = (rest.take s).all (fun c => !(c == ' ')) := by
  obtain ⟨A, B, hAB, hlen, hni⟩ := pyFind_eq_some '[' rest s hs
  cases hsp : pyFind ' ' rest with
  | none =>
    have hns : ' ' ∉ rest := (pyFind_eq_none ' ' rest).mp hsp
    show true = _
    symm
    rw [List.all_eq_true]
    intro x hx
    have hxr : x ∈ rest := List.mem_of_mem_take hx
    have hxs : x ≠ ' ' := fun h => hns (h ▸ hxr)
    simpa using hxs
  | some p =>
    obtain ⟨U, V, hUV, hlenU, hniU⟩ := pyFind_eq_some ' ' rest p hsp
    show decide (s < p) = _
    by_cases hlt : s < p
    · rw [decide_eq_true hlt]
      symm
      rw [List.all_eq_true]
      intro x hx
      have h1 : rest.take s = U.take s := by
        rw [hUV, List.take_append_eq_append_take,
          show s - U.length = 0 from by omega, List.take_zero, List.append_nil]
      rw [h1] at hx
      have hxU : x ∈ U := List.mem_of_mem_take hx
      have hxs : x ≠ ' ' := fun h => hniU (h ▸ hxU)
      simpa using hxs
    · have hps : p ≠ s := by
        intro he
        subst he
        have heq : U ++ ' ' :: V = A ++ '[' :: B := hUV.symm.trans hAB
        have hinj := List.append_inj heq (by omega)
        have : (' ' : Char) = '[' := by
          have h2 := hinj.2
          exact List.head_eq_of_cons_eq h2
        cases this
      have hplt : p < s := by omega
      rw [decide_eq_false hlt]
      symm
      have hmem : ' ' ∈ rest.take s := by
        rw [hUV, List.take_append_eq_append_take]
        refine List.mem_append.mpr (Or.inr ?_)
        rw [show s - U.length = (s - p - 1) + 1 from by omega, List.take_succ_cons]
        simp
      refine Bool.eq_false_iff.mpr ?_
      intro hall
      rw [List.all_eq_true] at hall
      have := hall ' ' hmem
      simp at this

/-- Spec-side command-syntax extraction, phrased as the specification states
it: a `topic[index]` prefix is recognized when the first `[` exists, precedes
the last `]`, and no space character occurs anywhere before it; the topic is
the trimmed text before the first `[` (the default topic when empty), the
index expression is the trimmed text between the first `[` and the last `]`,
and the payload is the trimmed text after the last `]`; in every other case
the topic is the default topic, the index expression is absent, and the
payload is the whole trimmed remainder. -/
def splitTopicIndexSpec (nick rest : Str) : Str × Option Str × Str :=
  match pyFind '[' rest, pyRFind ']' rest with
  | some s, some f =>
    if decide (s < f) && (rest.take s).all (fun c => !(c == ' ')) then
      ((if (pyStrip (rest.take s)).isEmpty then nick else pyStrip (rest.take s)),
        some (pyStrip ((rest.take f).drop (s + 1))),
        pyStrip (rest.drop (f + 1)))
    else (nick, none, pyStrip rest)
  | _, _ => (nick, none, pyStrip rest)

/-- C6: the command-syntax extraction of the code coincides, for every nick
and remainder text, with the specification's description (first `[` before
the last `]` and before any space; split of the part before the last `]` on
the first `[` into trimmed topic and index, empty topic falling back to the
default; trimmed text after the last `]` as payload; otherwise default topic,
no index expression, whole trimmed remainder as payload). -/
theorem syntax_extraction_spec_eq (nick rest : Str) :
    splitTopicIndex nick rest = splitTopicIndexSpec nick rest := by
  simp only [splitTopicIndex, splitTopicIndexSpec]
  cases hs : pyFind '[' rest with
  | none => cases hf : pyRFind ']' rest <;> rfl
  | some s =>
    cases hf : pyRFind ']' rest with
    | none => rfl
    | some f =>
      show (if decide (s < f) && (match pyFind ' ' rest with
            | none => true | some p => decide (s < p)) then _ else _)
          = (if decide (s < f) && (rest.take s).all (fun c => !(c == ' ')) then _ else _)
      rw [space_cond_eq rest s hs]
      by_cases hc : (decide (s < f) && (rest.take s).all (fun c => !(c == ' '))) = true
      · rw [if_pos hc, if_pos hc]
        have hsf : s < f := by
          have := (Bool.and_eq_true _ _).mp hc
          exact of_decide_eq_true this.1
        obtain ⟨A, B, hAB, hlen, hni⟩ := pyFind_eq_some '[' rest s hs
        have htake : rest.take f = A ++ '[' :: B.take (f - s - 1) := by
          rw [hAB, List.take_append_eq_append_take,
            List.take_of_length_le (by omega),
            show f - A.length = (f - s - 1) + 1 from by omega,
            List.take_succ_cons]
        have hsplit : splitFirst '[' (rest.take f) = (A, some (B.take (f - s - 1))) := by
          rw [htake]
          exact splitFirst_append '[' A _ hni
        rw [hsplit]
        have h1 : rest.take s = A := by
          rw [hAB, show s = A.length from hlen.symm, List.take_left]
        have h2 : (rest.take f).drop (s + 1) = B.take (f - s - 1) := by
          rw [htake, show A ++ '[' :: B.take (f - s - 1)
              = (A ++ ['[']) ++ B.take (f - s - 1) from by simp,
            show s + 1 = (A ++ ['[']).length from by simp [← hlen],
            List.drop_left]
        rw [h1, h2]
      · rw [if_neg hc, if_neg hc]

/-! ### Add/pop round trip -/

lemma getD_append_len : ∀ (A : List Str) (x : Str) (R : List Str),
    (A ++ x :: R).getD A.length [] = x := by
  intro A
  induction A with
  | nil => intro x R; rfl
  | cons a A' ih => intro x R; exact ih x R

lemma removeAt_append_len (A : List Str) (x : Str) (R : List Str) :
    removeAt (A ++ x :: R) A.length = A ++ R := by
  unfold removeAt
  rw [List.take_left]
  congr 1
  rw [show A ++ x :: R = (A ++ [x]) ++ R from by simp,
    show A.length + 1 = (A ++ [x]).length from by simp, List.drop_left]

lemma foldl_add_front : ∀ (ps : List Str) (items : List Str),
    ps.foldl (fun cur p => addOp cur [] p) items = ps.reverse ++ items := by
  intro ps
  induction ps with
  | nil => intro items; rfl
  | cons p ps' ih =>
    intro items
    show ps'.foldl (fun cur p => addOp cur [] p) (addOp items [] p) = _
    rw [show addOp items [] p = p :: items from rfl, ih]
    simp

/-- C9: one add at an in-range index followed by one pop at the inserted
position restores the original list (and pops back exactly the added
payload); more generally, any sequence of default (front) adds followed by
one pop whose resolved indices are, as a set, exactly the inserted positions
`0..k-1` — in any order and with any duplications — restores the original
list. -/
theorem add_pop_roundtrip :
    (∀ (items : List Str) (i : Int) (payload : Str),
      0 ≤ i → i < (items.length : Int) →
      popOp (addOp items [i] payload) [i + 1] = (items, [payload])) ∧
    (∀ (items ps : List Str) (idxs : List Int),
      ps ≠ [] →
      sortedSet idxs = (List.range ps.length).map (fun k : Nat => (k : Int)) →
      (popOp (ps.foldl (fun cur p => addOp cur [] p) items) idxs).1 = items) := by
  constructor
  · intro items i payload h0 hlen
    have hadd : addOp items [i] payload
        = items.take (i.toNat + 1) ++ payload :: items.drop (i.toNat + 1) := by
      show addStep payload items i = _
      exact addStep_insert items payload i h0 hlen
    rw [hadd]
    set A := items.take (i.toNat + 1) with hA
    set R := items.drop (i.toNat + 1) with hR
    have hAlen : A.length = i.toNat + 1 := by
      rw [hA, List.length_take]
      omega
    show popLoop (descSet [i + 1]) (A ++ payload :: R) = _
    rw [show descSet [i + 1] = [i + 1] from rfl, popLoop_cons]
    have hMlen : (A ++ payload :: R).length = items.length + 1 := by
      rw [List.length_append, List.length_cons, hAlen, hR, List.length_drop]
      omega
    have hir : inRange (A ++ payload :: R).length (i + 1) = true := by
      rw [inRange_iff, hMlen]
      push_cast
      omega
    rw [if_pos hir]
    have htn : (i + 1).toNat = A.length := by
      rw [hAlen]
      omega
    rw [htn, removeAt_append_len, getD_append_len]
    show (A ++ R, [payload]) = _
    rw [hA, hR, List.take_append_drop]
  · intro items ps idxs hps hss
    have hidxs : idxs ≠ [] := by
      intro h
      subst h
      rw [show sortedSet [] = [] from rfl] at hss
      have : List.range ps.length = [] := List.map_eq_nil_iff.mp hss.symm
      exact hps (List.length_eq_zero.mp (List.range_eq_nil.mp this))
    rw [foldl_add_front, popOp_eq]
    show remainingFrom 0 (validAsc (ps.reverse ++ items).length idxs) (ps.reverse ++ items) = _
    have hval : validAsc (ps.reverse ++ items).length idxs
        = (List.range ps.length).map (fun k : Nat => (k : Int)) := by
      unfold validAsc popDefault
      rw [if_neg (by simpa [List.isEmpty_iff] using hidxs), hss]
      refine List.filter_eq_self.mpr ?_
      intro a ha
      obtain ⟨m, hm, rfl⟩ := List.mem_map.mp ha
      rw [List.mem_range] at hm
      rw [inRange_iff]
      constructor
      · positivity
      · rw [List.length_append, List.length_reverse]
        push_cast
        omega
    rw [hval, remainingFrom_append]
    have h1 : remainingFrom 0 ((List.range ps.length).map (fun k : Nat => (k : Int)))
        ps.reverse = [] := by
      refine remainingFrom_all_in _ _ _ ?_
      intro q hq1 hq2
      rw [List.length_reverse] at hq2
      refine List.mem_map.mpr ⟨q.toNat, ?_, by omega⟩
      rw [List.mem_range]
      omega
    have h2 : remainingFrom (0 + (ps.reverse.length : Int))
        ((List.range ps.length).map (fun k : Nat => (k : Int))) items = items := by
      refine remainingFrom_outside _ _ _ ?_
      intro x hx
      obtain ⟨m, hm, rfl⟩ := List.mem_map.mp hx
      rw [List.mem_range] at hm
      left
      rw [List.length_reverse]
      omega
    rw [h1, h2, List.nil_append]

/-- Witness for `add_pop_roundtrip` at concrete inputs. -/
theorem add_pop_roundtrip_witness :
    popOp (addOp [("a").toList, ("b").toList] [0] (("x").toList)) [0 + 1]
        = ([("a").toList, ("b").toList], [("x").toList]) ∧
    (popOp (([("x").toList, ("y").toList] : List Str).foldl
        (fun cur p => addOp cur [] p) [("a").toList]) [1, 0, 1]).1 = [("a").toList] :=
  ⟨add_pop_roundtrip.1 [("a").toList, ("b").toList] 0 (("x").toList) (by decide) (by decide),
    add_pop_roundtrip.2 [("a").toList] [("x").toList, ("y").toList] [1, 0, 1]
      (by decide) (by decide)⟩
